import Mathlib

/-!
Verification of the `fixed-point` crate: a fixed-point decimal type
`FixedPoint<T, D>` storing `stored : T` with real value `stored / 10^D`.

The embedding models the underlying integer type `T` by its value range
`[lo, hi]` (e.g. `i32` is `[-2^31, 2^31 - 1]`); the stored value is an `Int`.
The parser (`FromStr::from_str` in src/src/lib.rs) works on a 64-bit signed
intermediate (`isize`); its arithmetic is modelled with the release-profile
semantics of the host language: multiplication, exponentiation, addition and
negation wrap modulo 2^64 into `[-2^63, 2^63)`, and division by zero is an
unconditional runtime panic (modelled as the distinct error `RErr.panicked`).
String parsing of the intermediate (`str::parse::<isize>`) checks its range
and fails with `none` rather than wrapping.
-/

/-- Lower bound of the 64-bit signed intermediate type (`isize::MIN`). -/
def isizeMin : Int := -(2 ^ 63)

/-- Upper bound of the 64-bit signed intermediate type (`isize::MAX`). -/
def isizeMax : Int := 2 ^ 63 - 1

/-- Wrap an integer into the 64-bit signed range, the release-profile
behaviour of overflowing `isize` arithmetic. -/
def wrap (x : Int) : Int := Int.emod (x + 2 ^ 63) (2 ^ 64) - 2 ^ 63

/-- Numeric value of an ASCII digit character, `none` for any other char.
Models the per-character acceptance of `str::parse::<isize>`. -/
def digit? (c : Char) : Option Nat :=
  if 48 ≤ c.toNat ∧ c.toNat ≤ 57 then some (c.toNat - 48) else none

/-- Accumulating decimal read of a digit string, most significant first,
failing on the first non-digit. -/
def digitsFrom (acc : Nat) : List Char → Option Nat
  | [] => some acc
  | c :: cs =>
    match digit? c with
    | some d => digitsFrom (acc * 10 + d) cs
    | none => none

/-- Value of a non-empty all-digit character list, `none` otherwise. -/
def digitsVal (l : List Char) : Option Nat :=
  match l with
  | [] => none
  | _ => digitsFrom 0 l

/-- Model of `str::parse::<isize>`: optional single leading `-` or `+`,
then one or more ASCII digits, with the value range-checked into the 64-bit
signed range (overflow is a parse error, not a wrap). -/
def parseIsize (l : List Char) : Option Int :=
  match l with
  | [] => none
  | c :: rest =>
    if c = '-' then
      (digitsVal rest).bind fun n =>
        if (n : Int) ≤ 2 ^ 63 then some (-(n : Int)) else none
    else if c = '+' then
      (digitsVal rest).bind fun n =>
        if (n : Int) ≤ 2 ^ 63 - 1 then some (n : Int) else none
    else
      (digitsVal (c :: rest)).bind fun n =>
        if (n : Int) ≤ 2 ^ 63 - 1 then some (n : Int) else none

/-- Model of `str::split(char)` on character lists: `splitOnChar c l` is the
list of maximal `c`-free segments; it is never empty, and both a leading and
a trailing separator produce an empty segment, as in the host library. -/
def splitOnChar (c : Char) : List Char → List (List Char)
  | [] => [[]]
  | x :: xs =>
    match splitOnChar c xs with
    | [] => [[]]
    | h :: t => if x = c then [] :: h :: t else (x :: h) :: t

/-- Parse errors of the model. `parseFail` is the crate's unit parse error
`()`; `panicked` marks a runtime panic (division by zero on the wrapped
divisor, which under the checked profile is an overflow panic at the same
expression). -/
inductive RErr where
  | parseFail : RErr
  | panicked : RErr
deriving DecidableEq

deriving instance DecidableEq for Except

/-- Model of `T::try_from(v : isize)`: range-check into `[lo, hi]`, mapping
failure to the crate's unit parse error. -/
def tryFromT (lo hi v : Int) : Except RErr Int :=
  if lo ≤ v ∧ v ≤ hi then Except.ok v else Except.error RErr.parseFail

/-- Model of `<FixedPoint<T, D> as FromStr>::from_str` (src/src/lib.rs lines
110-140). `lo, hi` are the bounds of `T`; the result is the stored integer.
Mirrors the source line by line: the `negative` flag from the first
character, `split('.')`, `parse::<isize>` of the integer segment, scaling by
`10^D`, the early return when there is no fractional segment, the cap
`min(len, 255)`, `parse::<isize>` of the fractional segment, conditional
negation, scaling up by `10^(D - len)` or down by `10^(len - D)`, and the
final checked conversion into `T`. -/
def from_str (lo hi : Int) (D : Nat) (s : String) : Except RErr Int :=
  let negative : Bool :=
    match s.data with
    | c :: _ => c == '-'
    | [] => false
  match splitOnChar '.' s.data with
  | [] => Except.error RErr.parseFail
  | ipart :: rest =>
    match parseIsize ipart with
    | none => Except.error RErr.parseFail
    | some i0 =>
      let integer := wrap (i0 * (10 : Int) ^ D)
      match rest with
      | [] => tryFromT lo hi integer
      | field :: _ =>
        let dl := min field.length 255
        match parseIsize field with
        | none => Except.error RErr.parseFail
        | some d0 =>
          let d1 := if integer < 0 ∨ negative = true then wrap (-d0) else d0
          if dl ≤ D then
            tryFromT lo hi (wrap (integer + wrap (d1 * (10 : Int) ^ (D - dl))))
          else
            let divisor := wrap ((10 : Int) ^ (dl - D))
            if divisor = 0 then Except.error RErr.panicked
            else tryFromT lo hi (wrap (integer + Int.tdiv d1 divisor))

/-- Bounds of `i32`, the storage type used by the crate's parsing tests. -/
def i32lo : Int := -(2 ^ 31)

/-- Upper bound of `i32`. -/
def i32hi : Int := 2 ^ 31 - 1

/-- Decimal digit character for a value below 10 (ASCII `'0' + d`). -/
def digitChar10 (d : Nat) : Char := Char.ofNat (48 + d)

/-- Little-endian base-10 digit list of `n`, with explicit fuel so the
definition is structural (the fuel `n + 1` always suffices). -/
def natToRevDigits (fuel : Nat) (n : Nat) : List Nat :=
  match fuel with
  | 0 => []
  | f + 1 => if n < 10 then [n] else n % 10 :: natToRevDigits f (n / 10)

/-- Decimal representation of a natural number, the output of the host's
integer `Display` (no sign, no leading zeros, `"0"` for zero). -/
def natRepr (n : Nat) : List Char :=
  ((natToRevDigits (n + 1) n).reverse).map digitChar10

/-- Decimal representation of an integer, the output of the host's signed
integer `Display`: a `-` prefix for negative values. -/
def intRepr (i : Int) : List Char :=
  if i < 0 then '-' :: natRepr i.natAbs else natRepr i.natAbs

/-- Left zero-padding to width `w`, the host's `{:0w$}` format specifier
(numbers wider than `w` are printed in full). -/
def padZeros (w : Nat) (l : List Char) : List Char :=
  List.replicate (w - l.length) '0' ++ l

/-- The trailing-zero stripping loop of `Display::fmt` (src/src/lib.rs lines
160-163): divide out factors of 10 while the remainder digit is zero,
decrementing the remaining width. The width is also the fuel; the loop is
reached only with `0 < dec < 10^width`, where the fuel never runs out. -/
def stripZeros : Nat → Nat → Nat × Nat
  | dec, 0 => (dec, 0)
  | dec, l + 1 => if dec % 10 = 0 then stripZeros (dec / 10) l else (dec, l + 1)

namespace FixedPoint

/-- Model of `FixedPoint::integer` (src/src/lib.rs lines 86-88): the stored
value divided by `10^D` with the host's signed division, which truncates
toward zero. -/
def integer (D : Nat) (v : Int) : Int := Int.tdiv v ((10 : Int) ^ D)

/-- Model of `FixedPoint::decimal` (src/src/lib.rs lines 90-92): the stored
value reduced `mod 10^D` with the host's remainder, whose sign follows the
dividend. -/
def decimal (D : Nat) (v : Int) : Int := Int.tmod v ((10 : Int) ^ D)

end FixedPoint

/-- Model of `<FixedPoint<T, D> as Display>::fmt` (src/src/lib.rs lines
142-177): take the absolute decimal remainder; if `D = 0` or it is zero,
print `integer.0`; otherwise strip trailing zeros, then print
`integer.decimal` with the decimal left-padded with zeros to the remaining
width, special-casing a negative value with zero integer part by prefixing
`-`. Exact when `10^D` fits the storage type `T`, the regime in which the
source's `T::ten().pow(D)` does not overflow. -/
def fmtFixed (D : Nat) (v : Int) : String :=
  let dec0 := (FixedPoint.decimal D v).natAbs
  if D = 0 ∨ dec0 = 0 then
    String.mk (intRepr (FixedPoint.integer D v) ++ ['.', '0'])
  else
    let p := stripZeros dec0 D
    let intg := FixedPoint.integer D v
    if intg = 0 ∧ v < 0 then
      String.mk ('-' :: '0' :: '.' :: padZeros p.2 (natRepr p.1))
    else
      String.mk (intRepr intg ++ '.' :: padZeros p.2 (natRepr p.1))

/-- Model of `ops::Div<T> for FixedPoint<T, D>` (src/src/lib.rs lines
95-101): the stored integer is divided directly by the scalar with the
host's truncating division. -/
def fpDivScalar (v d : Int) : Int := Int.tdiv v d

/-- The comparison of the derived `PartialOrd` on the single-field tuple
struct `FixedPoint<T, D>(pub T)` (src/src/lib.rs lines 37-38): it compares
the stored integers. -/
def fpLt (a b : Int) : Prop := a < b

/-- Whether a character is an ASCII decimal digit. -/
def isDigitChar (c : Char) : Bool := decide (48 ≤ c.toNat ∧ c.toNat ≤ 57)

/-- Body of the spec's parsing grammar: `digits ['.' digits]`. -/
def shapeSegs (l : List Char) : Bool :=
  match splitOnChar '.' l with
  | [a] => decide (a ≠ []) && a.all isDigitChar
  | [a, b] => decide (a ≠ []) && a.all isDigitChar &&
      decide (b ≠ []) && b.all isDigitChar
  | _ => false

/-- The spec's parsing grammar `[-]digits['.'digits]` (spec §4.3), written
from the spec's words for comparison with the source parser. -/
def specShape (s : String) : Bool :=
  match s.data with
  | '-' :: rest => shapeSegs rest
  | l => shapeSegs l

/-- The formatting algorithm as the spec words it (§4.3): compute the
integer part and the decimal remainder; if `D = 0` or the remainder is zero
emit `integer.0`; otherwise take the absolute remainder as a `D`-digit
zero-padded digit string with its trailing zero digits stripped, and emit
`integer.decimal`, with a `-` before a zero integer part when the stored
value is negative. Spec-side of the refinement proof for the formatter. -/
def fmtSpec (D : Nat) (v : Int) : String :=
  let intg := Int.tdiv v ((10 : Int) ^ D)
  let r := Int.tmod v ((10 : Int) ^ D)
  if D = 0 ∨ r = 0 then String.mk (intRepr intg ++ ['.', '0'])
  else
    let padded := padZeros D (natRepr r.natAbs)
    let dec := (padded.reverse.dropWhile (fun c => c == '0')).reverse
    let sign : List Char := if intg = 0 ∧ v < 0 then ['-'] else []
    String.mk (sign ++ intRepr intg ++ '.' :: dec)

/-- Modelled from the spec: the compile-time literal facility (the `fixed!`
macro of the `macros` crate) has no implementation under src/ — only its
tests are present — so it is modelled from spec §4.2: underscores between
digits are ignored, an optional leading `-` gives the sign, the body has
shape `digits ['.' digits]`, the precision is the explicit argument or else
is inferred as the number of digits after the decimal point (0 when there is
none), and the stored value is the exact integer scaling of the literal by
`10^D`, truncating excess fractional digits toward zero. The integer-type
suffix of the literal only selects `T` and is not modelled. Returns the pair
`(D, stored)`, or `none` for an ill-formed literal. -/
def fixedLit (s : String) (Dopt : Option Nat) : Option (Nat × Int) :=
  let chars := (s.data).filter (fun c => c != '_')
  let sign : Bool :=
    match chars with
    | c :: _ => c == '-'
    | [] => false
  let body := if sign then chars.tail else chars
  match splitOnChar '.' body with
  | [a] =>
    match digitsVal a with
    | none => none
    | some n =>
      let D := Dopt.getD 0
      let m : Int := (n : Int) * (10 : Int) ^ D
      some (D, if sign then -m else m)
  | [a, b] =>
    match digitsVal a, digitsVal b with
    | some n, some f =>
      let L := b.length
      let D := Dopt.getD L
      let frac : Int :=
        if L ≤ D then (f : Int) * (10 : Int) ^ (D - L)
        else Int.tdiv (f : Int) ((10 : Int) ^ (L - D))
      let m : Int := (n : Int) * (10 : Int) ^ D + frac
      some (D, if sign then -m else m)
    | _, _ => none
  | _ => none

/-! ### Helper lemmas: wrapping -/

theorem wrap_eq_self {x : Int} (h1 : -(2 ^ 63) ≤ x) (h2 : x < 2 ^ 63) :
    wrap x = x := by
  have h : Int.emod (x + 2 ^ 63) (2 ^ 64) = x + 2 ^ 63 :=
    Int.emod_eq_of_lt (by omega) (by omega)
  simp only [wrap, h]
  omega

theorem pow10_le_of_le {D : Nat} (h : D ≤ 18) :
    (10 : Int) ^ D ≤ 10 ^ 18 :=
  pow_le_pow_right₀ (by norm_num) h

theorem pow10_pos (D : Nat) : (0 : Int) < 10 ^ D := pow_pos (by norm_num) D

/-! ### Helper lemmas: digits and digit strings -/

theorem digit?_digitChar10 {d : Nat} (h : d < 10) :
    digit? (digitChar10 d) = some d := by
  interval_cases d <;> decide

theorem digitChar10_not_special {d : Nat} (h : d < 10) :
    digitChar10 d ≠ '.' ∧ digitChar10 d ≠ '-' ∧ digitChar10 d ≠ '+' := by
  interval_cases d <;> decide

theorem digitChar10_eq_zero_iff {d : Nat} (h : d < 10) :
    digitChar10 d = '0' ↔ d = 0 := by
  interval_cases d <;> decide

theorem digit?_lt {c : Char} {d : Nat} (h : digit? c = some d) : d < 10 := by
  unfold digit? at h
  split at h
  · injection h with h2
    omega
  · cases h

theorem digitsFrom_append (acc : Nat) (xs ys : List Char) :
    digitsFrom acc (xs ++ ys) =
      (digitsFrom acc xs).bind fun a => digitsFrom a ys := by
  induction xs generalizing acc with
  | nil => simp [digitsFrom]
  | cons c cs ih =>
    simp only [List.cons_append, digitsFrom]
    cases digit? c with
    | none => rfl
    | some d => simp [ih]

theorem digitsFrom_shift (l : List Char) (acc : Nat) :
    digitsFrom acc l = (digitsFrom 0 l).map fun m => acc * 10 ^ l.length + m := by
  induction l generalizing acc with
  | nil => simp [digitsFrom]
  | cons c cs ih =>
    cases hd : digit? c with
    | none => simp [digitsFrom, hd]
    | some d =>
      simp only [digitsFrom, hd]
      rw [ih (acc * 10 + d), ih (0 * 10 + d)]
      cases hm : digitsFrom 0 cs with
      | none => rfl
      | some m =>
        simp only [Option.map_some']
        congr 1
        simp [List.length_cons, pow_succ]
        ring

theorem digitsFrom_lt :
    ∀ (l : List Char) (acc m : Nat), digitsFrom acc l = some m →
      m < (acc + 1) * 10 ^ l.length := by
  intro l
  induction l with
  | nil =>
    intro acc m h
    simp [digitsFrom] at h
    simp [h.symm]
  | cons c cs ih =>
    intro acc m h
    simp only [digitsFrom] at h
    cases hd : digit? c with
    | none => rw [hd] at h; cases h
    | some d =>
      rw [hd] at h
      have hdlt : d < 10 := digit?_lt hd
      have := ih (acc * 10 + d) m h
      calc m < (acc * 10 + d + 1) * 10 ^ cs.length := this
        _ ≤ ((acc + 1) * 10) * 10 ^ cs.length :=
          Nat.mul_le_mul_right _ (by omega)
        _ = (acc + 1) * 10 ^ (c :: cs).length := by
          simp [List.length_cons, pow_succ]; ring

theorem digitsVal_eq {l : List Char} (h : l ≠ []) :
    digitsVal l = digitsFrom 0 l := by
  cases l with
  | nil => exact absurd rfl h
  | cons c cs => rfl

theorem natToRevDigits_eq_digits :
    ∀ (fuel n : Nat), 1 ≤ n → n ≤ fuel →
      natToRevDigits fuel n = Nat.digits 10 n := by
  intro fuel
  induction fuel with
  | zero => intro n h1 h2; omega
  | succ f ih =>
    intro n h1 h2
    simp only [natToRevDigits]
    by_cases hn : n < 10
    · rw [if_pos hn, Nat.digits_of_lt 10 n (by omega) hn]
    · rw [if_neg hn,
        Nat.digits_def' (by norm_num : (1 : ℕ) < 10) (by omega)]
      congr 1
      have hdiv : n / 10 < n := Nat.div_lt_self (by omega) (by norm_num)
      exact ih (n / 10) (by omega) (by omega)

theorem natRepr_eq_digits {n : Nat} (h : 1 ≤ n) :
    natRepr n = ((Nat.digits 10 n).reverse).map digitChar10 := by
  unfold natRepr
  rw [natToRevDigits_eq_digits (n + 1) n h (by omega)]

theorem mem_natRepr {n : Nat} {c : Char} (h : c ∈ natRepr n) :
    ∃ d, d < 10 ∧ c = digitChar10 d := by
  by_cases hn : n = 0
  · subst hn
    simp only [show natRepr 0 = ['0'] from rfl, List.mem_singleton] at h
    exact ⟨0, by norm_num, h⟩
  · rw [natRepr_eq_digits (by omega)] at h
    simp only [List.mem_map, List.mem_reverse] at h
    obtain ⟨d, hd, rfl⟩ := h
    exact ⟨d, Nat.digits_lt_base (by norm_num) hd, rfl⟩

theorem natRepr_ne_nil (n : Nat) : natRepr n ≠ [] := by
  by_cases hn : n = 0
  · subst hn; decide
  · rw [natRepr_eq_digits (by omega)]
    simp [Nat.digits_ne_nil_iff_ne_zero.mpr hn]

theorem digitsFrom_revDigits :
    ∀ (ds : List Nat) (acc : Nat), (∀ d ∈ ds, d < 10) →
      digitsFrom acc ((ds.reverse).map digitChar10) =
        some (acc * 10 ^ ds.length + Nat.ofDigits 10 ds) := by
  intro ds
  induction ds with
  | nil => intro acc _; simp [digitsFrom, Nat.ofDigits_nil]
  | cons d rest ih =>
    intro acc hall
    rw [List.reverse_cons, List.map_append, digitsFrom_append,
      ih acc (fun x hx => hall x (List.mem_cons_of_mem d hx))]
    have hd : d < 10 := hall d (List.mem_cons_self d rest)
    simp only [Option.some_bind, List.map_cons, List.map_nil, digitsFrom,
      digit?_digitChar10 hd]
    rw [Nat.ofDigits_cons]
    congr 1
    simp [List.length_cons, pow_succ]
    ring

theorem digitsVal_natRepr (n : Nat) : digitsVal (natRepr n) = some n := by
  by_cases hn : n = 0
  · subst hn; decide
  · rw [digitsVal_eq (natRepr_ne_nil n), natRepr_eq_digits (by omega),
      digitsFrom_revDigits (Nat.digits 10 n) 0
        (fun d hd => Nat.digits_lt_base (by norm_num) hd)]
    simp [Nat.ofDigits_digits]

theorem natRepr_length_le {n k : Nat} (h : n < 10 ^ k) (hk : 1 ≤ k) :
    (natRepr n).length ≤ k := by
  by_cases hn : n = 0
  · subst hn
    simpa using hk
  · rw [natRepr_eq_digits (by omega)]
    simp only [List.length_map, List.length_reverse]
    rw [Nat.digits_len 10 n (by norm_num) hn]
    have := Nat.log_lt_of_lt_pow hn h
    omega

theorem digitsFrom_replicate_zero (k acc : Nat) :
    digitsFrom acc (List.replicate k '0') = some (acc * 10 ^ k) := by
  induction k generalizing acc with
  | zero => simp [digitsFrom]
  | succ n ih =>
    simp only [List.replicate_succ, digitsFrom,
      show digit? '0' = some 0 from by decide]
    rw [ih]
    congr 1
    ring

theorem digitsVal_padZeros (w n : Nat) :
    digitsVal (padZeros w (natRepr n)) = some n := by
  have hne : padZeros w (natRepr n) ≠ [] := by
    unfold padZeros
    intro h
    exact natRepr_ne_nil n (List.append_eq_nil.mp h).2
  rw [digitsVal_eq hne]
  unfold padZeros
  rw [digitsFrom_append, digitsFrom_replicate_zero]
  simp only [Nat.zero_mul, Option.some_bind]
  rw [← digitsVal_eq (natRepr_ne_nil n), digitsVal_natRepr]

theorem mem_padZeros {w n : Nat} {c : Char}
    (h : c ∈ padZeros w (natRepr n)) : ∃ d, d < 10 ∧ c = digitChar10 d := by
  unfold padZeros at h
  rcases List.mem_append.mp h with h | h
  · rw [List.eq_of_mem_replicate h]
    exact ⟨0, by norm_num, rfl⟩
  · exact mem_natRepr h

theorem padZeros_length {w : Nat} {l : List Char} (h : l.length ≤ w) :
    (padZeros w l).length = w := by
  simp [padZeros]
  omega

theorem parseIsize_of_digits {l : List Char} {n : Nat} (hne : l ≠ [])
    (hd : ∀ c ∈ l, ∃ d, d < 10 ∧ c = digitChar10 d)
    (hv : digitsVal l = some n) (hb : (n : Int) ≤ 2 ^ 63 - 1) :
    parseIsize l = some ((n : Nat) : Int) := by
  cases l with
  | nil => exact absurd rfl hne
  | cons c cs =>
    obtain ⟨d, hdlt, rfl⟩ := hd c (List.mem_cons_self c cs)
    have hspec := digitChar10_not_special hdlt
    simp only [parseIsize, if_neg hspec.2.1, if_neg hspec.2.2, hv,
      Option.some_bind]
    rw [if_pos hb]

theorem parseIsize_natRepr {n : Nat} (hb : (n : Int) ≤ 2 ^ 63 - 1) :
    parseIsize (natRepr n) = some ((n : Nat) : Int) :=
  parseIsize_of_digits (natRepr_ne_nil n) (fun _ hc => mem_natRepr hc)
    (digitsVal_natRepr n) hb

theorem parseIsize_intRepr {i : Int} (h1 : -(2 ^ 63) ≤ i)
    (h2 : i ≤ 2 ^ 63 - 1) : parseIsize (intRepr i) = some i := by
  unfold intRepr
  by_cases hi : i < 0
  · rw [if_pos hi]
    simp only [parseIsize, if_pos rfl, digitsVal_natRepr, Option.some_bind]
    have hb : (i.natAbs : Int) ≤ 2 ^ 63 := by omega
    rw [if_pos hb]
    show some (-(i.natAbs : Int)) = some i
    congr 1
    omega
  · rw [if_neg hi]
    have hb : ((i.natAbs : Nat) : Int) ≤ 2 ^ 63 - 1 := by omega
    rw [@parseIsize_natRepr i.natAbs hb]
    have he : ((i.natAbs : Nat) : Int) = i := by omega
    rw [he]

/-! ### Helper lemmas: splitting on the decimal point -/

theorem splitOnChar_ne_nil (c : Char) (l : List Char) :
    splitOnChar c l ≠ [] := by
  cases l with
  | nil => simp [splitOnChar]
  | cons x xs =>
    simp only [splitOnChar]
    cases h : splitOnChar c xs with
    | nil => simp
    | cons hh tt => by_cases hx : x = c <;> simp [hx]

theorem splitOnChar_not_mem {c : Char} {l : List Char} (h : c ∉ l) :
    splitOnChar c l = [l] := by
  induction l with
  | nil => rfl
  | cons x xs ih =>
    have hx : x ≠ c := fun he => h (he ▸ List.mem_cons_self x xs)
    have hxs : c ∉ xs := fun hm => h (List.mem_cons_of_mem x hm)
    simp only [splitOnChar, ih hxs]
    rw [if_neg hx]

theorem splitOnChar_append {c : Char} {a : List Char} (b : List Char)
    (h : c ∉ a) : splitOnChar c (a ++ c :: b) = a :: splitOnChar c b := by
  induction a with
  | nil =>
    show splitOnChar c (c :: b) = [] :: splitOnChar c b
    simp only [splitOnChar]
    cases hs : splitOnChar c b with
    | nil => exact absurd hs (splitOnChar_ne_nil c b)
    | cons hh tt => simp
  | cons x xs ih =>
    have hx : x ≠ c := fun he => h (he ▸ List.mem_cons_self x xs)
    have hxs : c ∉ xs := fun hm => h (List.mem_cons_of_mem x hm)
    show splitOnChar c (x :: (xs ++ c :: b)) = (x :: xs) :: splitOnChar c b
    simp only [splitOnChar, ih hxs]
    rw [if_neg hx]

/-! ### Helper lemmas: the trailing-zero stripping loop -/

theorem stripZeros_spec :
    ∀ (Dl a : Nat), 0 < a → a < 10 ^ Dl →
      (stripZeros a Dl).1 * 10 ^ (Dl - (stripZeros a Dl).2) = a ∧
      (stripZeros a Dl).1 % 10 ≠ 0 ∧
      0 < (stripZeros a Dl).2 ∧ (stripZeros a Dl).2 ≤ Dl ∧
      (stripZeros a Dl).1 < 10 ^ (stripZeros a Dl).2 := by
  intro Dl
  induction Dl with
  | zero =>
    intro a h1 h2
    simp at h2
    omega
  | succ l ih =>
    intro a h1 h2
    by_cases hm : a % 10 = 0
    · have hd : 0 < a / 10 := by omega
      have hlt : a / 10 < 10 ^ l := by
        have hp : a < 10 * 10 ^ l := by rw [← pow_succ']; exact h2
        omega
      have hrec := ih (a / 10) hd hlt
      simp only [stripZeros, if_pos hm]
      obtain ⟨e1, e2, e3, e4, e5⟩ := hrec
      refine ⟨?_, e2, by omega, by omega, e5⟩
      have hexp : l + 1 - (stripZeros (a / 10) l).2 =
          (l - (stripZeros (a / 10) l).2) + 1 := by omega
      rw [hexp, pow_succ, ← mul_assoc, e1]
      omega
    · simp only [stripZeros, if_neg hm]
      exact ⟨by simp, hm, by omega, le_refl _, h2⟩

/-! ### Helper lemmas: truncating division and remainder bounds -/

theorem neg_tmod' (a b : Int) : (-a).tmod b = -(a.tmod b) := by
  rw [Int.tmod_def, Int.tmod_def, Int.neg_tdiv]
  ring

theorem tmod_natAbs_lt (v : Int) (D : Nat) :
    (Int.tmod v ((10 : Int) ^ D)).natAbs < 10 ^ D := by
  have hc : ((10 ^ D : Nat) : Int) = (10 : Int) ^ D := by push_cast; ring
  rcases le_or_lt 0 v with hv | hv
  · have h1 := Int.tmod_nonneg ((10 : Int) ^ D) hv
    have h2 := Int.tmod_lt_of_pos v (pow10_pos D)
    omega
  · have h0 : (0 : Int) ≤ -v := by omega
    have h1 := Int.tmod_nonneg ((10 : Int) ^ D) h0
    have h2 := Int.tmod_lt_of_pos (-v) (pow10_pos D)
    rw [neg_tmod'] at h1 h2
    omega

theorem tmod_nonpos' {v E : Int} (hv : v ≤ 0) : Int.tmod v E ≤ 0 := by
  have h0 : (0 : Int) ≤ -v := by omega
  have h1 := Int.tmod_nonneg E h0
  rw [neg_tmod'] at h1
  omega

theorem tdiv_abs_le (v : Int) (D : Nat) :
    (Int.tdiv v ((10 : Int) ^ D)).natAbs ≤ v.natAbs := by
  rw [Int.natAbs_tdiv]
  exact Nat.div_le_self _ _

theorem tdiv_mul_abs_le (v : Int) (D : Nat) :
    ((10 : Int) ^ D * Int.tdiv v ((10 : Int) ^ D)).natAbs ≤ v.natAbs := by
  rw [Int.natAbs_mul, Int.natAbs_tdiv, Nat.mul_comm]
  exact Nat.div_mul_le_self _ _

theorem tdiv_nonpos_of_nonpos {v : Int} (D : Nat) (hv : v ≤ 0) :
    Int.tdiv v ((10 : Int) ^ D) ≤ 0 := by
  have h0 : (0 : Int) ≤ -v := by omega
  have := Int.tdiv_nonneg h0 (le_of_lt (pow10_pos D))
  rw [Int.neg_tdiv] at this
  omega

theorem tdiv_nonneg_of_nonneg {v : Int} (D : Nat) (hv : 0 ≤ v) :
    0 ≤ Int.tdiv v ((10 : Int) ^ D) :=
  Int.tdiv_nonneg hv (le_of_lt (pow10_pos D))

/-! ### Helper lemmas: shape of the formatted pieces -/

theorem string_data_mk (l : List Char) : (String.mk l).data = l := rfl

theorem intRepr_ne_nil (i : Int) : intRepr i ≠ [] := by
  unfold intRepr
  split
  · simp
  · exact natRepr_ne_nil _

theorem not_dot_natRepr (n : Nat) : '.' ∉ natRepr n := by
  intro h
  obtain ⟨d, hd, he⟩ := mem_natRepr h
  exact (digitChar10_not_special hd).1 he.symm

theorem not_dot_intRepr (i : Int) : '.' ∉ intRepr i := by
  unfold intRepr
  split
  · intro h
    rcases List.mem_cons.mp h with h | h
    · cases h
    · exact not_dot_natRepr _ h
  · exact not_dot_natRepr _

theorem not_dot_padZeros (w n : Nat) : '.' ∉ padZeros w (natRepr n) := by
  intro h
  obtain ⟨d, hd, he⟩ := mem_padZeros h
  exact (digitChar10_not_special hd).1 he.symm

theorem natRepr_head_ne_dash {n : Nat} {c : Char} {cs : List Char}
    (h : natRepr n = c :: cs) : (c == '-') = false := by
  have hc : c ∈ natRepr n := by rw [h]; exact List.mem_cons_self c cs
  obtain ⟨d, hd, he⟩ := mem_natRepr hc
  subst he
  have := (digitChar10_not_special hd).2.1
  simpa using this

/-- Unfolding of `from_str` on a string of the shape `ip ++ "." ++ fld` with a
non-empty dot-free integer segment and a dot-free fractional segment. -/
theorem from_str_two_parts (lo hi : Int) (D : Nat) (c : Char)
    (cs fld : List Char) (hdot1 : '.' ∉ c :: cs) (hdot2 : '.' ∉ fld) :
    from_str lo hi D (String.mk ((c :: cs) ++ '.' :: fld)) =
      (match parseIsize (c :: cs) with
       | none => Except.error RErr.parseFail
       | some i0 =>
         let integer := wrap (i0 * (10 : Int) ^ D)
         let dl := min fld.length 255
         match parseIsize fld with
         | none => Except.error RErr.parseFail
         | some d0 =>
           let d1 := if integer < 0 ∨ (c == '-') = true then wrap (-d0) else d0
           if dl ≤ D then
             tryFromT lo hi (wrap (integer + wrap (d1 * (10 : Int) ^ (D - dl))))
           else
             let divisor := wrap ((10 : Int) ^ (dl - D))
             if divisor = 0 then Except.error RErr.panicked
             else tryFromT lo hi (wrap (integer + Int.tdiv d1 divisor))) := by
  have h1 : splitOnChar '.' ((c :: cs) ++ '.' :: fld) =
      (c :: cs) :: splitOnChar '.' fld := splitOnChar_append fld hdot1
  rw [splitOnChar_not_mem hdot2] at h1
  have h2 : splitOnChar '.' (c :: (cs ++ '.' :: fld)) = (c :: cs) :: [fld] := by
    rw [← List.cons_append]
    exact h1
  simp only [from_str, string_data_mk, List.cons_append, h2]

/-! ### Round-trip: parsing a formatted value recovers the stored integer -/

theorem roundtrip_dot0 (lo hi : Int) (D : Nat) (v : Int)
    (hlo : -(2 ^ 31) ≤ lo) (hhi : hi ≤ 2 ^ 31 - 1)
    (hl : lo ≤ v) (hr : v ≤ hi)
    (hbr : D = 0 ∨ Int.tmod v ((10 : Int) ^ D) = 0) :
    from_str lo hi D
      (String.mk (intRepr (Int.tdiv v ((10 : Int) ^ D)) ++ ['.', '0'])) =
      Except.ok v := by
  have hvlo : -(2 ^ 31) ≤ v := le_trans hlo hl
  have hvhi : v ≤ 2 ^ 31 - 1 := le_trans hr hhi
  have habs := tdiv_abs_le v D
  have hmul := tdiv_mul_abs_le v D
  obtain ⟨c, cs, hic⟩ : ∃ c cs, intRepr (Int.tdiv v ((10 : Int) ^ D)) = c :: cs := by
    cases h : intRepr (Int.tdiv v ((10 : Int) ^ D)) with
    | nil => exact absurd h (intRepr_ne_nil _)
    | cons c cs => exact ⟨c, cs, rfl⟩
  have hpi : parseIsize (c :: cs) = some (Int.tdiv v ((10 : Int) ^ D)) := by
    rw [← hic]
    exact parseIsize_intRepr (by omega) (by omega)
  have hdot1 : '.' ∉ c :: cs := by rw [← hic]; exact not_dot_intRepr _
  rw [hic, from_str_two_parts lo hi D c cs ['0'] hdot1 (by decide)]
  simp only [hpi, show parseIsize ['0'] = some 0 from by decide,
    List.length_singleton, show min 1 255 = 1 from rfl, neg_zero,
    show wrap 0 = 0 from by decide, ite_self]
  have hmul' : (v.tdiv ((10 : Int) ^ D) * 10 ^ D).natAbs ≤ v.natAbs := by
    rw [mul_comm]; exact hmul
  have hiwrap : wrap (v.tdiv ((10 : Int) ^ D) * 10 ^ D) =
      v.tdiv ((10 : Int) ^ D) * 10 ^ D :=
    wrap_eq_self (by omega) (by omega)
  by_cases hD0 : D = 0
  · subst hD0
    rw [if_neg (by norm_num)]
    rw [if_neg (by decide)]
    have hw : wrap v = v := wrap_eq_self (by omega) (by omega)
    simp only [Int.zero_tdiv, pow_zero, Int.tdiv_one, mul_one, add_zero]
    rw [hw, hw]
    simp only [tryFromT]
    rw [if_pos ⟨hl, hr⟩]
  · have h1D : 1 ≤ D := by omega
    have hmod := hbr.resolve_left hD0
    rw [if_pos h1D]
    have hid := Int.tdiv_add_tmod v ((10 : Int) ^ D)
    rw [hmod, add_zero] at hid
    have hveq : v.tdiv ((10 : Int) ^ D) * 10 ^ D = v := by
      rw [mul_comm]; exact hid
    simp only [zero_mul, show wrap 0 = 0 from by decide, add_zero]
    rw [hiwrap, hveq]
    have hw : wrap v = v := wrap_eq_self (by omega) (by omega)
    rw [hw]
    simp only [tryFromT]
    rw [if_pos ⟨hl, hr⟩]

theorem roundtrip_frac (lo hi : Int) (D : Nat) (v : Int)
    (hlo : -(2 ^ 31) ≤ lo) (hhi : hi ≤ 2 ^ 31 - 1)
    (hD : (10 : Int) ^ D ≤ hi) (hl : lo ≤ v) (hr : v ≤ hi)
    (hD0 : D ≠ 0) (ha0 : (Int.tmod v ((10 : Int) ^ D)).natAbs ≠ 0) :
    from_str lo hi D (fmtFixed D v) = Except.ok v := by
  have hvlo : -(2 ^ 31) ≤ v := le_trans hlo hl
  have hvhi : v ≤ 2 ^ 31 - 1 := le_trans hr hhi
  have hEpos := pow10_pos D
  have hD9 : D ≤ 9 := by
    by_contra hcon
    push_neg at hcon
    have h10 : (10 : Int) ^ 10 ≤ (10 : Int) ^ D :=
      pow_le_pow_right₀ (by norm_num) (by omega)
    have hv10 : ((10 : Int) ^ 10 : Int) = 10000000000 := by norm_num
    omega
  have hD1 : 1 ≤ D := by omega
  have halt : (Int.tmod v ((10 : Int) ^ D)).natAbs < 10 ^ D := tmod_natAbs_lt v D
  have hapos : 0 < (Int.tmod v ((10 : Int) ^ D)).natAbs := Nat.pos_of_ne_zero ha0
  obtain ⟨dec, len, hsz⟩ :
      ∃ d l, stripZeros (Int.tmod v ((10 : Int) ^ D)).natAbs D = (d, l) :=
    ⟨_, _, rfl⟩
  obtain ⟨e1, e2, e3, e4, e5⟩ :=
    stripZeros_spec D (Int.tmod v ((10 : Int) ^ D)).natAbs hapos halt
  rw [hsz] at e1 e2 e3 e4 e5
  simp only [Prod.fst, Prod.snd] at e1 e2 e3 e4 e5
  have hdec9 : dec < 10 ^ 9 :=
    lt_of_lt_of_le e5 (Nat.pow_le_pow_right (by norm_num) (le_trans e4 hD9))
  have hc9 : ((10 ^ 9 : Nat) : Int) = 1000000000 := by norm_num
  have hcD : ((10 ^ D : Nat) : Int) = (10 : Int) ^ D := by push_cast; ring
  have hdecb : ((dec : Nat) : Int) ≤ 2 ^ 63 - 1 := by omega
  have hflen : (padZeros len (natRepr dec)).length = len :=
    padZeros_length (natRepr_length_le e5 (by omega))
  have hfne : padZeros len (natRepr dec) ≠ [] := by
    unfold padZeros
    intro h
    exact natRepr_ne_nil dec (List.append_eq_nil.mp h).2
  have hpd : parseIsize (padZeros len (natRepr dec)) = some ((dec : Nat) : Int) :=
    parseIsize_of_digits hfne (fun _ hc => mem_padZeros hc)
      (digitsVal_padZeros len dec) hdecb
  have hdot2 : '.' ∉ padZeros len (natRepr dec) := not_dot_padZeros len dec
  have hcast : ((dec : Nat) : Int) * (10 : Int) ^ (D - len) =
      ((Int.tmod v ((10 : Int) ^ D)).natAbs : Int) := by exact_mod_cast e1
  have haD : ((Int.tmod v ((10 : Int) ^ D)).natAbs : Int) < (10 : Int) ^ D := by
    rw [← hcD]
    exact_mod_cast halt
  have hid := Int.tdiv_add_tmod v ((10 : Int) ^ D)
  have hbrn : ¬(D = 0 ∨ (FixedPoint.decimal D v).natAbs = 0) := by
    push_neg
    exact ⟨hD0, ha0⟩
  by_cases hneg : Int.tdiv v ((10 : Int) ^ D) = 0 ∧ v < 0
  · have hfmt : fmtFixed D v =
        String.mk (('-' :: ['0']) ++ '.' :: padZeros len (natRepr dec)) := by
      unfold fmtFixed
      rw [if_neg hbrn]
      simp only [show FixedPoint.decimal D v = Int.tmod v ((10 : Int) ^ D) from rfl,
        show FixedPoint.integer D v = Int.tdiv v ((10 : Int) ^ D) from rfl, hsz]
      rw [if_pos ⟨hneg.1, hneg.2⟩]
      rfl
    rw [hfmt, from_str_two_parts lo hi D '-' ['0']
      (padZeros len (natRepr dec)) (by decide) hdot2]
    simp only [show parseIsize ('-' :: ['0']) = some 0 from by decide, hpd, hflen]
    have hmin : len ⊓ 255 = len := min_eq_left (by omega)
    rw [hmin, if_pos e4]
    rw [if_pos (Or.inr (show ('-' == '-') = true from rfl))]
    simp only [zero_mul, show wrap 0 = 0 from by decide, zero_add]
    have hw1 : wrap (-(dec : Int)) = -(dec : Int) :=
      wrap_eq_self (by omega) (by omega)
    rw [hw1, neg_mul, hcast]
    have hw2 : wrap (-(((Int.tmod v ((10 : Int) ^ D)).natAbs : Nat) : Int)) =
        -(((Int.tmod v ((10 : Int) ^ D)).natAbs : Nat) : Int) :=
      wrap_eq_self (by omega) (by omega)
    rw [hw2, hw2]
    have hveq : -((((Int.tmod v ((10 : Int) ^ D)).natAbs : Nat)) : Int) = v := by
      have h1 : Int.tmod v ((10 : Int) ^ D) ≤ 0 :=
        @tmod_nonpos' v ((10 : Int) ^ D) (by omega)
      rw [hneg.1, mul_zero, zero_add] at hid
      omega
    rw [hveq]
    simp only [tryFromT]
    rw [if_pos ⟨hl, hr⟩]
  · have hfmt : fmtFixed D v =
        String.mk (intRepr (Int.tdiv v ((10 : Int) ^ D)) ++
          '.' :: padZeros len (natRepr dec)) := by
      unfold fmtFixed
      rw [if_neg hbrn]
      simp only [show FixedPoint.decimal D v = Int.tmod v ((10 : Int) ^ D) from rfl,
        show FixedPoint.integer D v = Int.tdiv v ((10 : Int) ^ D) from rfl, hsz]
      rw [if_neg hneg]
    have habs := tdiv_abs_le v D
    have hmul := tdiv_mul_abs_le v D
    obtain ⟨c, cs, hic⟩ :
        ∃ c cs, intRepr (Int.tdiv v ((10 : Int) ^ D)) = c :: cs := by
      cases h : intRepr (Int.tdiv v ((10 : Int) ^ D)) with
      | nil => exact absurd h (intRepr_ne_nil _)
      | cons c cs => exact ⟨c, cs, rfl⟩
    have hpi : parseIsize (c :: cs) = some (Int.tdiv v ((10 : Int) ^ D)) := by
      rw [← hic]
      exact parseIsize_intRepr (by omega) (by omega)
    have hdot1 : '.' ∉ c :: cs := by rw [← hic]; exact not_dot_intRepr _
    rw [hfmt, hic, from_str_two_parts lo hi D c cs _ hdot1 hdot2]
    simp only [hpi, hpd, hflen]
    have hmin : len ⊓ 255 = len := min_eq_left (by omega)
    rw [hmin, if_pos e4]
    have hmul' : (Int.tdiv v ((10 : Int) ^ D) * 10 ^ D).natAbs ≤ v.natAbs := by
      rw [mul_comm]; exact hmul
    have hiwrap : wrap (Int.tdiv v ((10 : Int) ^ D) * 10 ^ D) =
        Int.tdiv v ((10 : Int) ^ D) * 10 ^ D :=
      wrap_eq_self (by omega) (by omega)
    rw [hiwrap]
    have hcomm : Int.tdiv v ((10 : Int) ^ D) * 10 ^ D =
        10 ^ D * Int.tdiv v ((10 : Int) ^ D) := mul_comm _ _
    rcases lt_or_le v 0 with hv | hv
    · have hI0 : Int.tdiv v ((10 : Int) ^ D) ≠ 0 := fun h => hneg ⟨h, hv⟩
      have hIneg : Int.tdiv v ((10 : Int) ^ D) < 0 := by
        have := tdiv_nonpos_of_nonpos D (le_of_lt hv)
        omega
      have hcdash : c = '-' := by
        have hrep : intRepr (Int.tdiv v ((10 : Int) ^ D)) =
            '-' :: natRepr (Int.tdiv v ((10 : Int) ^ D)).natAbs := by
          unfold intRepr
          rw [if_pos hIneg]
        have h2 := hrep.symm.trans hic
        exact ((List.cons_eq_cons.mp h2).1).symm
      subst hcdash
      rw [if_pos (Or.inr (show ('-' == '-') = true from rfl))]
      have hw1 : wrap (-(dec : Int)) = -(dec : Int) :=
        wrap_eq_self (by omega) (by omega)
      rw [hw1, neg_mul, hcast]
      have hw2 : wrap (-(((Int.tmod v ((10 : Int) ^ D)).natAbs : Nat) : Int)) =
          -(((Int.tmod v ((10 : Int) ^ D)).natAbs : Nat) : Int) :=
        wrap_eq_self (by omega) (by omega)
      rw [hw2]
      have h1 : Int.tmod v ((10 : Int) ^ D) ≤ 0 :=
        @tmod_nonpos' v ((10 : Int) ^ D) (le_of_lt hv)
      have hveq : Int.tdiv v ((10 : Int) ^ D) * 10 ^ D +
          -(((Int.tmod v ((10 : Int) ^ D)).natAbs : Nat) : Int) = v := by
        omega
      rw [hveq, wrap_eq_self (by omega) (by omega)]
      simp only [tryFromT]
      rw [if_pos ⟨hl, hr⟩]
    · have hInn : 0 ≤ Int.tdiv v ((10 : Int) ^ D) := tdiv_nonneg_of_nonneg D hv
      have hflag : (c == '-') = false := by
        have hirepr : intRepr (Int.tdiv v ((10 : Int) ^ D)) =
            natRepr (Int.tdiv v ((10 : Int) ^ D)).natAbs := by
          unfold intRepr
          rw [if_neg (by omega)]
        rw [hirepr] at hic
        exact natRepr_head_ne_dash hic
      have hcond : ¬(Int.tdiv v ((10 : Int) ^ D) * 10 ^ D < 0 ∨
          (c == '-') = true) := by
        push_neg
        refine ⟨mul_nonneg hInn (le_of_lt (pow10_pos D)), ?_⟩
        simp [hflag]
      rw [if_neg hcond]
      have hw1 : wrap ((dec : Int) * 10 ^ (D - len)) =
          (dec : Int) * 10 ^ (D - len) :=
        wrap_eq_self (by omega) (by omega)
      rw [hw1, hcast]
      have h1 : 0 ≤ Int.tmod v ((10 : Int) ^ D) := Int.tmod_nonneg _ hv
      have hveq : Int.tdiv v ((10 : Int) ^ D) * 10 ^ D +
          (((Int.tmod v ((10 : Int) ^ D)).natAbs : Nat) : Int) = v := by
        omega
      rw [hveq, wrap_eq_self (by omega) (by omega)]
      simp only [tryFromT]
      rw [if_pos ⟨hl, hr⟩]

theorem from_str_ok_range {lo hi : Int} {D : Nat} {s : String} {v : Int}
    (h : from_str lo hi D s = Except.ok v) : lo ≤ v ∧ v ≤ hi := by
  simp only [from_str] at h
  repeat' split at h
  all_goals first
    | cases h
    | (unfold tryFromT at h
       split at h
       · rename_i hc
         injection h with h
         subst h
         exact hc
       · cases h)

theorem from_str_fmtFixed (lo hi : Int) (D : Nat) (v : Int)
    (hlo : -(2 ^ 31) ≤ lo) (hhi : hi ≤ 2 ^ 31 - 1)
    (hD : (10 : Int) ^ D ≤ hi) (hl : lo ≤ v) (hr : v ≤ hi) :
    from_str lo hi D (fmtFixed D v) = Except.ok v := by
  by_cases hbr : D = 0 ∨ (FixedPoint.decimal D v).natAbs = 0
  · have hfmt : fmtFixed D v =
        String.mk (intRepr (Int.tdiv v ((10 : Int) ^ D)) ++ ['.', '0']) := by
      unfold fmtFixed
      rw [if_pos hbr]
      rfl
    rw [hfmt]
    apply roundtrip_dot0 lo hi D v hlo hhi hl hr
    rcases hbr with h | h
    · exact Or.inl h
    · right
      have hd : FixedPoint.decimal D v = Int.tmod v ((10 : Int) ^ D) := rfl
      rw [hd] at h
      omega
  · push_neg at hbr
    exact roundtrip_frac lo hi D v hlo hhi hD hl hr hbr.1 hbr.2

/-! ### Helper lemmas: the formatter against the spec's description -/

theorem natRepr_mul_pow10 (m : Nat) (t : Nat) (hm : 1 ≤ m) :
    natRepr (m * 10 ^ t) = natRepr m ++ List.replicate t '0' := by
  induction t with
  | zero => simp
  | succ t ih =>
    have hm1 : 1 ≤ m * 10 ^ t := Nat.one_le_iff_ne_zero.mpr (by positivity)
    have hm2 : 1 ≤ m * 10 ^ (t + 1) := Nat.one_le_iff_ne_zero.mpr (by positivity)
    rw [natRepr_eq_digits hm2]
    have hdig : Nat.digits 10 (m * 10 ^ (t + 1)) =
        0 :: Nat.digits 10 (m * 10 ^ t) := by
      rw [Nat.digits_def' (by norm_num : (1 : ℕ) < 10) (by omega)]
      congr 1
      · rw [pow_succ, ← mul_assoc]
        simp [Nat.mul_mod_left]
      · rw [pow_succ, ← mul_assoc]
        have hA : m * 10 ^ t * 10 / 10 = m * 10 ^ t := by
          generalize m * 10 ^ t = A
          omega
        rw [hA]
    rw [hdig, List.reverse_cons, List.map_append]
    rw [← natRepr_eq_digits hm1, ih]
    simp [List.replicate_succ', show digitChar10 0 = '0' from by decide]

theorem natRepr_reverse_digits {m : Nat} (hm : 1 ≤ m) :
    (natRepr m).reverse = (Nat.digits 10 m).map digitChar10 := by
  rw [natRepr_eq_digits hm, List.map_reverse, List.reverse_reverse]

theorem natRepr_reverse_head {m : Nat} (hm : 1 ≤ m) :
    (natRepr m).reverse =
      digitChar10 (m % 10) :: (Nat.digits 10 (m / 10)).map digitChar10 := by
  rw [natRepr_reverse_digits hm,
    Nat.digits_def' (by norm_num : (1 : ℕ) < 10) (by omega)]
  rfl

theorem dropWhile_replicate_append {p : Char → Bool} {c : Char}
    (hp : p c = true) (t : Nat) (l : List Char) :
    List.dropWhile p (List.replicate t c ++ l) = List.dropWhile p l := by
  induction t with
  | zero => rfl
  | succ t ih =>
    rw [List.replicate_succ, List.cons_append, List.dropWhile_cons_of_pos hp]
    exact ih

theorem strip_eq_dropWhile (Dl a : Nat) (h0 : 0 < a) (hlt : a < 10 ^ Dl) :
    padZeros (stripZeros a Dl).2 (natRepr (stripZeros a Dl).1) =
      ((padZeros Dl (natRepr a)).reverse.dropWhile
        (fun c => c == '0')).reverse := by
  obtain ⟨dec, len, hsz⟩ :
      ∃ d l, stripZeros a Dl = (d, l) := ⟨_, _, rfl⟩
  obtain ⟨e1, e2, e3, e4, e5⟩ := stripZeros_spec Dl a h0 hlt
  rw [hsz] at e1 e2 e3 e4 e5 ⊢
  simp only [Prod.fst, Prod.snd] at e1 e2 e3 e4 e5 ⊢
  have hdec1 : 1 ≤ dec := by
    rcases Nat.eq_zero_or_pos dec with h | h
    · exact absurd (by simp [h]) e2
    · exact h
  have hna : natRepr a = natRepr dec ++ List.replicate (Dl - len) '0' := by
    rw [← e1]
    exact natRepr_mul_pow10 dec (Dl - len) hdec1
  have hLd : (natRepr dec).length ≤ len := natRepr_length_le e5 (by omega)
  have hhead : (digitChar10 (dec % 10) == '0') = false := by
    have hlt10 : dec % 10 < 10 := Nat.mod_lt _ (by norm_num)
    have := (digitChar10_eq_zero_iff hlt10).not.mpr e2
    simpa using this
  unfold padZeros
  rw [hna]
  simp only [List.length_append, List.length_replicate,
    List.reverse_append, List.reverse_replicate]
  rw [List.append_assoc]
  rw [dropWhile_replicate_append (by rfl) (Dl - len)]
  rw [natRepr_reverse_head hdec1, List.cons_append,
    List.dropWhile_cons_of_neg (by simp [hhead]), ← List.cons_append,
    ← natRepr_reverse_head hdec1]
  rw [List.reverse_append, List.reverse_reverse, List.reverse_replicate]
  have hpad : Dl - ((natRepr dec).length + (Dl - len)) =
      len - (natRepr dec).length := by omega
  rw [hpad]

/-! ### Claim theorems -/

/-- C1: for every string the parser accepts at `FixedPoint<T, D>` (with `T`
displayable — its range within `i32`, per the `Display` bound `Into<i32>` —
and `10^D` representable in `T`), re-parsing the formatted value recovers
the identical stored integer, and formatting is idempotent: the re-parsed
value formats to the very same string. -/
theorem c1_parse_format_roundtrip (lo hi : Int) (D : Nat) (s : String)
    (v : Int) (hlo : -(2 ^ 31) ≤ lo) (hhi : hi ≤ 2 ^ 31 - 1)
    (hD : (10 : Int) ^ D ≤ hi) (hs : from_str lo hi D s = Except.ok v) :
    from_str lo hi D (fmtFixed D v) = Except.ok v ∧
    ∀ w, from_str lo hi D (fmtFixed D v) = Except.ok w →
      fmtFixed D w = fmtFixed D v := by
  obtain ⟨hl, hr⟩ := from_str_ok_range hs
  have hmain := from_str_fmtFixed lo hi D v hlo hhi hD hl hr
  refine ⟨hmain, fun w hw => ?_⟩
  rw [hmain] at hw
  injection hw with hw
  subst hw
  rfl

/-- Witness for C1: at `FixedPoint<i32, 2>`, the accepted input `"1.001"`
parses to stored 100, whose format `"1.0"` re-parses to 100. -/
theorem c1_parse_format_roundtrip_witness :
    from_str i32lo i32hi 2 (fmtFixed 2 100) = Except.ok 100 ∧
    fmtFixed 2 100 = "1.0" :=
  ⟨(c1_parse_format_roundtrip i32lo i32hi 2 "1.001" 100 (by decide)
      (by decide) (by decide) (by decide)).1, by decide⟩

/-- C4: `integer()` is the truncating, sign-following division of the
stored value by `10^D` and `decimal()` the matching remainder carrying the
dividend's sign, recomposing as `integer * 10^D + decimal = stored`; at
`FixedPoint<i32, 2>` with stored `-110`, `integer() = -1` and
`decimal() = -10`. -/
theorem c4_integer_decimal_recompose :
    (∀ (D : Nat) (v : Int),
      FixedPoint.integer D v * (10 : Int) ^ D + FixedPoint.decimal D v = v) ∧
    FixedPoint.integer 2 (-110) = -1 ∧ FixedPoint.decimal 2 (-110) = -10 := by
  refine ⟨fun D v => ?_, by decide, by decide⟩
  have h := Int.tdiv_add_tmod v ((10 : Int) ^ D)
  unfold FixedPoint.integer FixedPoint.decimal
  rw [mul_comm]
  exact h

/-- C5: the formatter agrees, for every precision and stored value, with
the spec's description of the algorithm — `"{integer}.0"` when `D = 0` or
the decimal remainder is zero; otherwise the absolute remainder as a
`D`-digit string with its trailing zero digits stripped (shrinking the
width) and left zero-padding to the remaining width, with a leading `-`
emitted when the integer part is zero but the stored value negative; no
rounding anywhere. In particular stored `-1` at `D = 1` prints `"-0.1"`. -/
theorem c5_formatting_matches_spec :
    (∀ (D : Nat) (v : Int), fmtFixed D v = fmtSpec D v) ∧
    fmtFixed 1 (-1) = "-0.1" := by
  refine ⟨fun D v => ?_, by decide⟩
  simp only [fmtFixed, fmtSpec]
  by_cases hbr : D = 0 ∨ Int.tmod v ((10 : Int) ^ D) = 0
  · have hbl : D = 0 ∨ (FixedPoint.decimal D v).natAbs = 0 := by
      rcases hbr with h | h
      · exact Or.inl h
      · right
        have hd : FixedPoint.decimal D v = Int.tmod v ((10 : Int) ^ D) := rfl
        rw [hd, h]
        rfl
    rw [if_pos hbl, if_pos hbr]
    rfl
  · have hbl : ¬(D = 0 ∨ (FixedPoint.decimal D v).natAbs = 0) := by
      intro h
      apply hbr
      rcases h with h | h
      · exact Or.inl h
      · right
        have hd : FixedPoint.decimal D v = Int.tmod v ((10 : Int) ^ D) := rfl
        rw [hd] at h
        omega
    rw [if_neg hbl, if_neg hbr]
    push_neg at hbr
    obtain ⟨hD0, hm0⟩ := hbr
    have h0 : 0 < (Int.tmod v ((10 : Int) ^ D)).natAbs := by omega
    have hlt : (Int.tmod v ((10 : Int) ^ D)).natAbs < 10 ^ D :=
      tmod_natAbs_lt v D
    have hkey :=
      strip_eq_dropWhile D (Int.tmod v ((10 : Int) ^ D)).natAbs h0 hlt
    have hint : FixedPoint.integer D v = Int.tdiv v ((10 : Int) ^ D) := rfl
    have hdec : FixedPoint.decimal D v = Int.tmod v ((10 : Int) ^ D) := rfl
    rw [hint, hdec]
    by_cases hsp : Int.tdiv v ((10 : Int) ^ D) = 0 ∧ v < 0
    · rw [if_pos hsp, if_pos hsp, hkey, hsp.1]
      rfl
    · rw [if_neg hsp, if_neg hsp, hkey]
      rfl

set_option maxRecDepth 8000 in
/-- C6: evaluating the parser at a 100-digit fractional input at
`FixedPoint<u16, 4>`: the capped fractional length 100 exceeds `D = 4` by
96, the wrapped divisor `10^96 mod 2^64` is zero, and the division panics
(under checked arithmetic the `pow` overflow panics at the same
expression) — contradicting the claim that every input yields `Ok` or
`Err`. -/
theorem c6_long_fraction_panics :
    from_str 0 65535 4
      (String.mk ('0' :: '.' :: (List.replicate 99 '0' ++ ['1']))) =
      Except.error RErr.panicked := by decide

/-- C7 counterexample: at `FixedPoint<i32, 65>` (`D ≥ 1`), parsing `"-0.1"`
succeeds with stored 0, not a negative value — the scale `10^64` wraps to
zero in the 64-bit intermediate, so the negated fractional contribution
vanishes. -/
theorem c7_counterexample :
    from_str i32lo i32hi 65 "-0.1" = Except.ok 0 := by decide

/-- C7 (amended): when `10^D` fits the 64-bit intermediate (`D ≤ 18`), a
successful parse of `"-0.1"` at `D ≥ 1` yields a negative stored value (the
fractional contribution is negated before combining despite the zero integer
part); and for every input, a successful parse is range-checked into `T`:
the stored value lies within `[lo, hi]`, so a value that does not fit is a
parse failure, never a wrapped `Ok`. -/
theorem c7_sign_propagation_range_checked :
    (∀ (lo hi : Int) (D : Nat) (v : Int), 1 ≤ D → D ≤ 18 →
      from_str lo hi D "-0.1" = Except.ok v → v < 0) ∧
    (∀ (lo hi : Int) (D : Nat) (s : String) (v : Int),
      from_str lo hi D s = Except.ok v → lo ≤ v ∧ v ≤ hi) := by
  constructor
  · intro lo hi D v h1 h18 hp
    have hs : ("-0.1" : String) = String.mk ((('-') :: ['0']) ++ '.' :: ['1']) := rfl
    rw [hs, from_str_two_parts lo hi D '-' ['0'] ['1'] (by decide) (by decide)]
      at hp
    simp only [show parseIsize ('-' :: ['0']) = some 0 from by decide,
      show parseIsize ['1'] = some 1 from by decide,
      List.length_singleton, show (1 : Nat) ⊓ 255 = 1 from rfl,
      zero_mul, show wrap 0 = 0 from by decide] at hp
    rw [if_pos h1] at hp
    rw [if_pos (Or.inr (show ('-' == '-') = true from rfl))] at hp
    have h17 : (10 : Int) ^ (D - 1) ≤ 10 ^ 17 :=
      pow_le_pow_right₀ (by norm_num) (by omega)
    have h17v : (10 : Int) ^ 17 = 100000000000000000 := by norm_num
    have hppos := pow10_pos (D - 1)
    have hw1 : wrap (-1 : Int) = -1 := by decide
    rw [hw1] at hp
    have hw2 : wrap ((-1 : Int) * 10 ^ (D - 1)) = -(10 : Int) ^ (D - 1) := by
      rw [neg_one_mul]
      exact wrap_eq_self (by omega) (by omega)
    rw [hw2, zero_add] at hp
    have hw3 : wrap (-(10 : Int) ^ (D - 1)) = -(10 : Int) ^ (D - 1) :=
      wrap_eq_self (by omega) (by omega)
    rw [hw3] at hp
    unfold tryFromT at hp
    split at hp
    · injection hp with hp
      omega
    · cases hp
  · intro lo hi D s v h
    exact from_str_ok_range h

/-- Witness for C7's amended theorem: at `FixedPoint<i32, 1>`, `"-0.1"`
parses to stored `-1 < 0`. -/
theorem c7_sign_propagation_witness : (-1 : Int) < 0 :=
  c7_sign_propagation_range_checked.1 i32lo i32hi 1 (-1) (by decide)
    (by decide) (by decide)

/-- C8: the scalar `/` divides the stored integer directly with truncation
toward zero: the quotient's magnitude is the quotient of magnitudes and
negation of the dividend negates the quotient; dividing the `D = 1` value
with stored 10 (representing `1.0`) by 3 yields stored 3, which formats as
`"0.3"`. -/
theorem c8_div_scalar_truncates :
    (∀ v d : Int, (fpDivScalar v d).natAbs = v.natAbs / d.natAbs) ∧
    (∀ v d : Int, fpDivScalar (-v) d = -(fpDivScalar v d)) ∧
    fpDivScalar 10 3 = 3 ∧ fmtFixed 1 3 = "0.3" := by
  refine ⟨fun v d => ?_, fun v d => ?_, by decide, by decide⟩
  · unfold fpDivScalar
    rw [Int.natAbs_tdiv]
    rfl
  · unfold fpDivScalar
    exact Int.neg_tdiv v d

/-- C9 (spec-modelled): the literal facility with no explicit precision
infers `D` as the number of digits after the decimal point, ignoring
underscores: `1.10` infers `D = 2` with stored 110 displaying `"1.1"`;
`1_1.0_1` infers `D = 2` with stored 1101 displaying `"11.01"`; a literal
with no decimal point infers `D = 0`. -/
theorem c9_literal_inference :
    fixedLit "1.10" none = some (2, 110) ∧ fmtFixed 2 110 = "1.1" ∧
    fixedLit "1_1.0_1" none = some (2, 1101) ∧ fmtFixed 2 1101 = "11.01" ∧
    fixedLit "5" none = some (0, 5) :=
  ⟨by decide, by decide, by decide, by decide, by decide⟩

/-- C10: the derived comparison on `FixedPoint<T, D>` compares the stored
integers, and this agrees with comparing the exact rational values
`stored / 10^D` they represent, because the scale `10^D` is the same
positive constant on both sides. -/
theorem c10_order_matches_rational_values (D : Nat) (a b : Int) :
    fpLt a b ↔ (a : ℚ) / (10 : ℚ) ^ D < (b : ℚ) / (10 : ℚ) ^ D := by
  unfold fpLt
  rw [div_lt_div_iff_of_pos_right (by positivity), Int.cast_lt]

/-- C2 counterexample: `"1.2.3"` does not match the grammar
`[-]digits['.'digits]`, yet the parser accepts it at `FixedPoint<i32, 1>`
with stored 12 — everything after the second `'.'` is silently ignored, so
acceptance is not exactly the claimed grammar. -/
theorem c2_counterexample :
    specShape "1.2.3" = false ∧
    from_str i32lo i32hi 1 "1.2.3" = Except.ok 12 := ⟨by decide, by decide⟩

/-- C2 (amended): the listed malformed inputs are rejected with the single
generic parse error — `""`, `"1."`, `".1"` for every `T` and `D`, `"-1.0"`
for every unsigned `T` (lower bound 0) whenever `10^D` fits the 64-bit
intermediate, and `"10.0"` at `FixedPoint<u16, 4>` by the range check —
though acceptance is not exactly the grammar `[-]digits['.'digits]`:
segments after a second `'.'` are ignored and `str::parse` sign characters
are accepted inside segments. -/
theorem c2_malformed_rejected :
    (∀ (lo hi : Int) (D : Nat),
      from_str lo hi D "" = Except.error RErr.parseFail) ∧
    (∀ (lo hi : Int) (D : Nat),
      from_str lo hi D "1." = Except.error RErr.parseFail) ∧
    (∀ (lo hi : Int) (D : Nat),
      from_str lo hi D ".1" = Except.error RErr.parseFail) ∧
    (∀ (lo hi : Int) (D : Nat), 0 ≤ lo → D ≤ 18 →
      from_str lo hi D "-1.0" = Except.error RErr.parseFail) ∧
    from_str 0 65535 4 "10.0" = Except.error RErr.parseFail := by
  refine ⟨fun lo hi D => rfl, fun lo hi D => rfl, fun lo hi D => rfl,
    ?_, by decide⟩
  intro lo hi D hlo h18
  have hs : ("-1.0" : String) =
      String.mk ((('-') :: ['1']) ++ '.' :: ['0']) := rfl
  rw [hs, from_str_two_parts lo hi D '-' ['1'] ['0'] (by decide) (by decide)]
  simp only [show parseIsize ('-' :: ['1']) = some (-1) from by decide,
    show parseIsize ['0'] = some 0 from by decide, List.length_singleton,
    show (1 : Nat) ⊓ 255 = 1 from rfl]
  have h18v : (10 : Int) ^ D ≤ 10 ^ 18 := pow_le_pow_right₀ (by norm_num) h18
  have h18n : (10 : Int) ^ 18 = 1000000000000000000 := by norm_num
  have hpp := pow10_pos D
  have hwi : wrap ((-1) * (10 : Int) ^ D) = -((10 : Int) ^ D) := by
    rw [neg_one_mul]
    exact wrap_eq_self (by omega) (by omega)
  rw [hwi]
  rw [if_pos (Or.inl (show -((10 : Int) ^ D) < 0 by omega))]
  rw [show wrap (-(0 : Int)) = 0 from by decide]
  by_cases hD : 1 ≤ D
  · rw [if_pos hD]
    rw [zero_mul, show wrap (0 : Int) = 0 from by decide, add_zero]
    rw [wrap_eq_self (by omega) (by omega)]
    unfold tryFromT
    rw [if_neg (by omega)]
  · have hD0 : D = 0 := by omega
    subst hD0
    rw [if_neg (by norm_num)]
    rw [if_neg (by decide)]
    simp only [Int.zero_tdiv, add_zero]
    rw [show wrap (-(10 : Int) ^ (0 : Nat)) = -1 from by decide]
    unfold tryFromT
    rw [if_neg (by omega)]

/-- Witness for C2's amended theorem: the unsigned rejection applied at
`FixedPoint<u16, 4>` to `"-1.0"`. -/
theorem c2_malformed_rejected_witness :
    from_str 0 65535 4 "-1.0" = Except.error RErr.parseFail :=
  c2_malformed_rejected.2.2.2.1 0 65535 4 (by decide) (by decide)

/-! ### Truncation of over-long fractional parts -/

theorem digitsFrom_digits_isSome :
    ∀ (l : List Char) (acc : Nat),
      (∀ c ∈ l, ∃ d, d < 10 ∧ c = digitChar10 d) →
      ∃ m, digitsFrom acc l = some m := by
  intro l
  induction l with
  | nil => intro acc _; exact ⟨acc, rfl⟩
  | cons c cs ih =>
    intro acc hall
    obtain ⟨d, hd, rfl⟩ := hall c (List.mem_cons_self c cs)
    obtain ⟨m, hm⟩ :=
      ih (acc * 10 + d) (fun x hx => hall x (List.mem_cons_of_mem _ hx))
    refine ⟨m, ?_⟩
    simp only [digitsFrom, digit?_digitChar10 hd]
    exact hm

theorem from_str_take_frac (lo hi : Int) (D : Nat) (c : Char)
    (cs F : List Char) (n : Nat) (hdot1 : '.' ∉ c :: cs)
    (hF : ∀ ch ∈ F, ∃ d, d < 10 ∧ ch = digitChar10 d)
    (hn : digitsVal F = some n) (hnb : (n : Int) ≤ 2 ^ 63 - 1)
    (hDL : D < F.length) (hcap : F.length ≤ 255)
    (h18 : F.length - D ≤ 18) :
    from_str lo hi D (String.mk ((c :: cs) ++ '.' :: F)) =
      from_str lo hi D (String.mk ((c :: cs) ++ '.' :: F.take (max D 1))) := by
  have hFne : F ≠ [] := by
    intro h
    rw [h] at hDL
    simp at hDL
  have hdotF : '.' ∉ F := by
    intro hm
    obtain ⟨d, hd, he⟩ := hF _ hm
    exact (digitChar10_not_special hd).1 he.symm
  have hdotT : '.' ∉ F.take (max D 1) :=
    fun hm => hdotF (List.take_subset _ _ hm)
  rw [from_str_two_parts lo hi D c cs F hdot1 hdotF,
    from_str_two_parts lo hi D c cs _ hdot1 hdotT]
  cases hpi : parseIsize (c :: cs) with
  | none => simp only [hpi]
  | some i0 =>
    simp only [hpi]
    set k := max D 1 with hk
    have hkle : k ≤ F.length := by omega
    have htlen : (F.take k).length = k := by
      rw [List.length_take]
      omega
    obtain ⟨n1, hn1⟩ := digitsFrom_digits_isSome (F.take k) 0
      (fun ch hm => hF ch (List.take_subset _ _ hm))
    have htne : F.take k ≠ [] := by
      intro h
      rw [h] at htlen
      simp at htlen
      omega
    have hvt : digitsVal (F.take k) = some n1 := by
      rw [digitsVal_eq htne]
      exact hn1
    have hsplitv : digitsFrom 0 F = some n := by
      rw [← digitsVal_eq hFne]
      exact hn
    have happ : digitsFrom 0 (F.take k ++ F.drop k) = some n := by
      rw [List.take_append_drop]
      exact hsplitv
    rw [digitsFrom_append, hn1] at happ
    simp only [Option.some_bind] at happ
    rw [digitsFrom_shift] at happ
    cases hd2 : digitsFrom 0 (F.drop k) with
    | none => rw [hd2] at happ; cases happ
    | some n2 =>
      rw [hd2] at happ
      simp only [Option.map_some'] at happ
      injection happ with happ
      have hdlen : (F.drop k).length = F.length - k := List.length_drop k F
      have hn2lt : n2 < 10 ^ (F.drop k).length := by
        have h := digitsFrom_lt (F.drop k) 0 n2 hd2
        simpa using h
      have hn1le : n1 ≤ n := by
        have h1 : n1 ≤ n1 * 10 ^ (F.drop k).length :=
          Nat.le_mul_of_pos_right n1 (by positivity)
        omega
      have hpF : parseIsize F = some ((n : Nat) : Int) :=
        parseIsize_of_digits hFne hF hn hnb
      have hpT : parseIsize (F.take k) = some ((n1 : Nat) : Int) :=
        parseIsize_of_digits htne
          (fun ch hm => hF ch (List.take_subset _ _ hm)) hvt (by omega)
      simp only [hpF, hpT, htlen]
      have hminF : F.length ⊓ 255 = F.length := min_eq_left hcap
      have hminT : k ⊓ 255 = k := min_eq_left (by omega)
      rw [hminF, hminT]
      rw [if_neg (by omega : ¬ F.length ≤ D)]
      have h18v : (10 : Int) ^ (F.length - D) ≤ 10 ^ 18 :=
        pow_le_pow_right₀ (by norm_num) h18
      have h18n : (10 : Int) ^ 18 = 1000000000000000000 := by norm_num
      have hppos := pow10_pos (F.length - D)
      have hdivw : wrap ((10 : Int) ^ (F.length - D)) =
          (10 : Int) ^ (F.length - D) := wrap_eq_self (by omega) (by omega)
      rw [hdivw, if_neg (by omega : ¬ (10 : Int) ^ (F.length - D) = 0)]
      by_cases hD1 : 1 ≤ D
      · have hkD : k = D := by omega
        rw [if_pos (by omega : k ≤ D)]
        rw [show D - k = 0 from by omega, pow_zero, mul_one]
        have he : F.length - D = (F.drop k).length := by omega
        have hq : n / 10 ^ (F.length - D) = n1 := by
          rw [he, ← happ, mul_comm,
            Nat.mul_add_div (by positivity : 0 < 10 ^ (F.drop k).length),
            Nat.div_eq_of_lt hn2lt, Nat.add_zero]
        have hqz : Int.tdiv ((n : Nat) : Int) ((10 : Int) ^ (F.length - D)) =
            ((n1 : Nat) : Int) := by
          have hcastp : ((10 : Int) ^ (F.length - D)) =
              ((10 ^ (F.length - D) : Nat) : Int) := by push_cast; ring
          rw [hcastp, ← Int.ofNat_tdiv, hq]
        by_cases hcond : wrap (i0 * (10 : Int) ^ D) < 0 ∨ (c == '-') = true
        · rw [if_pos hcond, if_pos hcond]
          have hwn : wrap (-((n : Nat) : Int)) = -((n : Nat) : Int) :=
            wrap_eq_self (by omega) (by omega)
          have hwn1 : wrap (-((n1 : Nat) : Int)) = -((n1 : Nat) : Int) :=
            wrap_eq_self (by omega) (by omega)
          rw [hwn, hwn1, hwn1, Int.neg_tdiv, hqz]
        · rw [if_neg hcond, if_neg hcond]
          have hwn1 : wrap ((n1 : Nat) : Int) = ((n1 : Nat) : Int) :=
            wrap_eq_self (by omega) (by omega)
          rw [hwn1, hqz]
      · have hD0 : D = 0 := by omega
        have hk1 : k = 1 := by omega
        rw [if_neg (by omega : ¬ k ≤ D)]
        rw [show k - D = 1 from by omega]
        rw [show wrap ((10 : Int) ^ (1 : Nat)) = 10 from by decide]
        rw [if_neg (by norm_num : ¬ (10 : Int) = 0)]
        have hnlt : n < 10 ^ F.length := by
          have h := digitsFrom_lt F 0 n hsplitv
          simpa using h
        have hn1lt : n1 < 10 := by
          have h := digitsFrom_lt (F.take k) 0 n1 hn1
          rw [htlen, hk1] at h
          simpa using h
        rw [show F.length - D = F.length from by omega]
        have hz1 : Int.tdiv ((n : Nat) : Int) ((10 : Int) ^ F.length) = 0 := by
          apply Int.tdiv_eq_zero_of_lt (by positivity)
          have hcastp : ((10 : Int) ^ F.length) =
              ((10 ^ F.length : Nat) : Int) := by push_cast; ring
          rw [hcastp]
          exact_mod_cast hnlt
        have hz2 : Int.tdiv ((n1 : Nat) : Int) (10 : Int) = 0 := by
          apply Int.tdiv_eq_zero_of_lt (by positivity)
          exact_mod_cast hn1lt
        by_cases hcond : wrap (i0 * (10 : Int) ^ D) < 0 ∨ (c == '-') = true
        · rw [if_pos hcond, if_pos hcond]
          have hwn : wrap (-((n : Nat) : Int)) = -((n : Nat) : Int) :=
            wrap_eq_self (by omega) (by omega)
          have hwn1 : wrap (-((n1 : Nat) : Int)) = -((n1 : Nat) : Int) :=
            wrap_eq_self (by omega) (by omega)
          rw [hwn, hwn1, Int.neg_tdiv, Int.neg_tdiv, hz1, hz2, neg_zero]
        · rw [if_neg hcond, if_neg hcond, hz1, hz2]

theorem exists_digit_of_isDigitChar {ch : Char} (h : isDigitChar ch = true) :
    ∃ d, d < 10 ∧ ch = digitChar10 d := by
  unfold isDigitChar at h
  rw [decide_eq_true_iff] at h
  refine ⟨ch.toNat - 48, by omega, ?_⟩
  unfold digitChar10
  have he : 48 + (ch.toNat - 48) = ch.toNat := by omega
  rw [he]
  exact (Char.ofNat_toNat ch).symm

/-- C3 counterexample: `"0.9000000000000000000"` (19 fractional digits,
`L - D = 19`) at `FixedPoint<i32, 0>`: the claim requires truncating
division by `10^19`, which would yield stored 0; the parser instead returns
stored `-1`, because the divisor `10^19` wraps to the negative value
`10^19 - 2^64` in the 64-bit intermediate and the truncating division flips
sign. (Under checked arithmetic the same input panics in the `pow`.) -/
theorem c3_counterexample :
    from_str i32lo i32hi 0 "0.9000000000000000000" = Except.ok (-1) := by
  decide

/-- C3 (amended): when the fractional part has more digits `L` than the
precision `D`, provided `L ≤ 255`, the exponent `L - D` fits the 64-bit
intermediate (`L - D ≤ 18`) and the fractional digit string's value fits
the intermediate, the extra digits are discarded by truncating integer
division by `10^(L-D)` toward zero and never rounded — equivalently,
parsing is unchanged by truncating the fractional string to its first
`max D 1` digits; in particular `"1.001"` at `FixedPoint<i32, 2>` parses to
stored 100 and formats as `"1.0"`. -/
theorem c3_truncation_discards_digits :
    (∀ (lo hi : Int) (D : Nat) (c : Char) (cs F : List Char) (n : Nat),
      '.' ∉ c :: cs →
      (∀ ch ∈ F, ∃ d, d < 10 ∧ ch = digitChar10 d) →
      digitsVal F = some n → (n : Int) ≤ 2 ^ 63 - 1 →
      D < F.length → F.length ≤ 255 → F.length - D ≤ 18 →
      from_str lo hi D (String.mk ((c :: cs) ++ '.' :: F)) =
        from_str lo hi D
          (String.mk ((c :: cs) ++ '.' :: F.take (max D 1)))) ∧
    from_str i32lo i32hi 2 "1.001" = Except.ok 100 ∧
    fmtFixed 2 100 = "1.0" :=
  ⟨fun lo hi D c cs F n h1 h2 h3 h4 h5 h6 h7 =>
      from_str_take_frac lo hi D c cs F n h1 h2 h3 h4 h5 h6 h7,
    by decide, by decide⟩

/-- Witness for C3's amended theorem: parsing `"1.001"` at
`FixedPoint<i32, 2>` equals parsing its two-digit truncation `"1.00"`. -/
theorem c3_truncation_witness :
    from_str i32lo i32hi 2 (String.mk ((('1') :: []) ++ '.' :: ['0', '0', '1'])) =
      from_str i32lo i32hi 2
        (String.mk ((('1') :: []) ++ '.' :: (['0', '0', '1'].take (max 2 1)))) :=
  c3_truncation_discards_digits.1 i32lo i32hi 2 '1' [] ['0', '0', '1'] 1
    (by decide)
    (fun ch hm => exists_digit_of_isDigitChar (by fin_cases hm <;> decide))
    (by decide) (by decide) (by decide) (by decide) (by decide)

/-!
### Agreement with the crate's test suite

The following checks evaluate the model on every case of the crate's own
tests (`test_fixed_point` and `test_malformed` in src/macros/tests/mod.rs).
-/

example : from_str i32lo i32hi 0 "0" = Except.ok 0 := by decide
example : from_str i32lo i32hi 1 "0.1" = Except.ok 1 := by decide
example : from_str i32lo i32hi 2 "0.01" = Except.ok 1 := by decide
example : from_str i32lo i32hi 2 "1.001" = Except.ok 100 := by decide
example : from_str i32lo i32hi 3 "-0.1" = Except.ok (-100) := by decide
example : from_str i32lo i32hi 3 "-1.1" = Except.ok (-1100) := by decide
example : from_str 0 65535 4 "" = Except.error RErr.parseFail := by decide
example : from_str 0 65535 4 "1." = Except.error RErr.parseFail := by decide
example : from_str 0 65535 4 ".1" = Except.error RErr.parseFail := by decide
example : from_str 0 65535 4 "-1.0" = Except.error RErr.parseFail := by decide
example : from_str 0 65535 4 "10.0" = Except.error RErr.parseFail := by decide
example : from_str i32lo i32hi 1 "1.2.3" = Except.ok 12 := by decide

example : fmtFixed 0 0 = "0.0" := by decide
example : fmtFixed 1 0 = "0.0" := by decide
example : fmtFixed 1 1 = "0.1" := by decide
example : fmtFixed 2 1 = "0.01" := by decide
example : fmtFixed 2 11 = "0.11" := by decide
example : fmtFixed 2 10 = "0.1" := by decide
example : fmtFixed 2 100 = "1.0" := by decide
example : fmtFixed 3 1 = "0.001" := by decide
example : fmtFixed 3 (-100) = "-0.1" := by decide
example : fmtFixed 3 (-1100) = "-1.1" := by decide
example : fmtSpec 3 (-1100) = "-1.1" := by decide
example : fmtSpec 2 10 = "0.1" := by decide
example : fixedLit "1.10" none = some (2, 110) := by decide
example : fixedLit "1_1.0_1" none = some (2, 1101) := by decide
example : fixedLit "0.25" (some 3) = some (3, 250) := by decide
example : fixedLit "-1.1" (some 2) = some (2, -110) := by decide
